import Mathlib

/-!
Verification development for the Open Australian Legal Corpus creator.

The definitions below are a shallow embedding of the two source files of the
repository: `src/oalc_creator/creator.py` (the Creator pipeline: discovery
index management, entry index management, corpus reconciliation) and
`sources/nsw_legislation.py` (the standalone NSW Legislation adapter).
File system state is passed explicitly (an `Option` value models a file that
may be absent), network calls become function parameters, and Python dicts
become association lists with Python insertion/update semantics.
-/

namespace OALC

/-! ## Data model (from `src/oalc_creator/data.py` usage in `creator.py`)

A `Request` is an immutable, hashable descriptor of one discovery query; a
dict of its fields is what `creator.py` persists.  An `Entry` records one
discovered document version, keyed by `version_id`.  A corpus record, as read
back by `Creator.create`, exposes at least its `version_id` and `source`
fields, which are the only fields reconciliation inspects. -/

structure Request where
  source : String
  parameters : String
deriving DecidableEq, Repr

structure Entry where
  version_id : String
  request : Request
deriving DecidableEq, Repr

structure CorpusDoc where
  version_id : String
  source : String
deriving DecidableEq, Repr

/-- Refresh intervals in `creator.py` are `True` (refresh every run), `False`
(never refresh) or a `datetime.timedelta`; times and durations are modelled
as integers (epoch seconds). -/
inductive RefreshInterval where
  | always
  | never
  | duration (d : Int)
deriving DecidableEq, Repr

/-! ## NSW Legislation adapter (`sources/nsw_legislation.py`)

The network and the HTML parser are abstracted into a function from a URL to
a `FetchOutcome`: either the parse succeeds, yielding the extracted text and
citation, or it raises `UnicodeDecodeError` (a PDF body decoded as UTF-8),
or an `IndexError` (an xpath on a nonexistent page), or some other
exception (network failure and the like). -/

inductive FetchOutcome where
  | success (text : String) (citation : String)
  | decodeError
  | indexError
  | otherError
deriving DecidableEq, Repr

/-- Substring test on character lists, used to model the Python expression
`"/act-" in url`. -/
def listContainsSub : List Char → List Char → Bool
  | needle, [] => needle.isEmpty
  | needle, hay@(_ :: t) => needle.isPrefixOf hay || listContainsSub needle t

/-- Substring test on strings: `strContainsSub n h` models the Python
expression `n in h`. -/
def strContainsSub (needle hay : String) : Bool :=
  listContainsSub needle.toList hay.toList

/-- The dict built at lines 51-58 of `sources/nsw_legislation.py` and appended
to `corpus.jsonl`, modelled as an ordered list of key/value pairs. -/
def mkDocument (url text citation : String) : List (String × String) :=
  [ ("text", text),
    ("type", if strContainsSub "/act-" url then "primary_legislation"
             else "secondary_legislation"),
    ("jurisdiction", "new_south_wales"),
    ("source", "nsw_legislation"),
    ("citation", citation),
    ("url", url) ]

/-- Replacement of every non-overlapping occurrence of a nonempty needle,
left to right, as the Python method `str.replace` does.  The `Nat` argument
is recursion fuel, instantiated with the length of the haystack (each step
consumes at least one haystack character, so the fuel never runs out). -/
def replaceSubAux (needle repl : List Char) : Nat → List Char → List Char
  | _, [] => []
  | 0, hay => hay
  | fuel + 1, c :: t =>
    if !needle.isEmpty && needle.isPrefixOf (c :: t) then
      repl ++ replaceSubAux needle repl fuel ((c :: t).drop needle.length)
    else
      c :: replaceSubAux needle repl fuel t

/-- Replacement of every non-overlapping occurrence of a nonempty needle in a
haystack, left to right. -/
def replaceSub (needle repl hay : List Char) : List Char :=
  replaceSubAux needle repl hay.length hay

/-- The fallback URL: `url.replace("/view/whole/html", "/view/whole/pdf")`. -/
def pdfUrl (url : String) : String :=
  String.mk (replaceSub "/view/whole/html".toList "/view/whole/pdf".toList url.toList)

/-- Observable effects of one call to `get_document`: the records appended to
`corpus.jsonl`, the rows appended to `indices/downloaded.jsonl`, the URL named
in a raised exception if one escapes the call, and how many fallback (PDF)
attempts were made. -/
structure Effects where
  corpusAppends : List (List (String × String))
  downloadedAppends : List (List String)
  raisedFrom : Option String
  fallbackCalls : Nat
deriving DecidableEq, Repr

/-- The recursive call `get_document(url, lock, recursive=True)`: the
`suppress(UnicodeDecodeError, IndexError)` block swallows decode and index
errors (the downloaded index is still appended to), while any other exception
is re-raised as a fatal error naming the current URL, with no second
fallback. -/
def getDocumentRecursive (web : String → FetchOutcome) (url : String) : Effects :=
  match web url with
  | .success text citation =>
      { corpusAppends := [mkDocument url text citation],
        downloadedAppends := [["nsw_legislation", url]],
        raisedFrom := none, fallbackCalls := 0 }
  | .decodeError =>
      { corpusAppends := [], downloadedAppends := [["nsw_legislation", url]],
        raisedFrom := none, fallbackCalls := 0 }
  | .indexError =>
      { corpusAppends := [], downloadedAppends := [["nsw_legislation", url]],
        raisedFrom := none, fallbackCalls := 0 }
  | .otherError =>
      { corpusAppends := [], downloadedAppends := [],
        raisedFrom := some url, fallbackCalls := 0 }

/-- Entry point `get_document(url)` (`recursive=False`): on success the
document dict and the downloaded row are appended; a `UnicodeDecodeError` or
`IndexError` is suppressed, the downloaded row alone is appended; any other
exception triggers exactly one fallback call against the PDF rendering of the
same URL. -/
def getDocument (web : String → FetchOutcome) (url : String) : Effects :=
  match web url with
  | .success text citation =>
      { corpusAppends := [mkDocument url text citation],
        downloadedAppends := [["nsw_legislation", url]],
        raisedFrom := none, fallbackCalls := 0 }
  | .decodeError =>
      { corpusAppends := [], downloadedAppends := [["nsw_legislation", url]],
        raisedFrom := none, fallbackCalls := 0 }
  | .indexError =>
      { corpusAppends := [], downloadedAppends := [["nsw_legislation", url]],
        raisedFrom := none, fallbackCalls := 0 }
  | .otherError =>
      let inner := getDocumentRecursive web (pdfUrl url)
      { inner with fallbackCalls := inner.fallbackCalls + 1 }

/-! ## Entry index tuples (`creator.py`, `_get_unindexed_index_reqs`)

One line of a per-source index file: the request, the entries it yielded and
the epoch time at which it was indexed. -/

structure IndexTuple where
  req : Request
  entries : List Entry
  whenIndexed : Int
deriving DecidableEq, Repr

/-! ## Discovery index manager (`Creator._get_index_reqs`, lines 112-134)

The persisted per-source request file is modelled as
`Option (List Request × Int)`: absent, or the saved requests together with
the file modification time. -/

/-- Embedding of `_get_index_reqs`: regenerate and save fresh requests when
the file is absent, the interval is `True`, or the interval is not `False`
and the file is older than the interval; otherwise load the saved requests.
Returns the requests together with the resulting file state. -/
def getIndexReqs (interval : RefreshInterval) (now : Int)
    (file : Option (List Request × Int)) (fresh : List Request) :
    List Request × Option (List Request × Int) :=
  if file.isNone || interval == RefreshInterval.always ||
     (interval != RefreshInterval.never &&
       (match interval, file with
        | .duration d, some (_, mtime) => decide (now - mtime > d)
        | _, _ => false)) then
    (fresh, some (fresh, now))
  else
    ((file.map Prod.fst).getD [], file)

/-- The refresh policy as the spec phrases it: regenerate exactly when the
persisted requests are absent, or the interval is `Always`, or the interval
is a duration exceeded by `now` minus the file modification time. -/
def specDiscoveryRegenerate (interval : RefreshInterval) (now : Int)
    (file : Option (List Request × Int)) : Bool :=
  file.isNone || interval == RefreshInterval.always ||
    (match interval, file with
     | .duration d, some (_, mtime) => decide (now - mtime > d)
     | _, _ => false)

/-! ## Entry index manager (`Creator._get_unindexed_index_reqs`, lines 136-171) -/

/-- The freshness test of line 160-164 of `creator.py`: a tuple is kept when
the interval is `False` or `now` minus its indexing time is at most the
interval.  (The `always` case is unreachable: the caller has already
returned by then.) -/
def tupleFresh (interval : RefreshInterval) (now : Int) (t : IndexTuple) : Bool :=
  interval == RefreshInterval.never ||
    (match interval with
     | .duration d => decide (now - t.whenIndexed ≤ d)
     | _ => false)

/-- Result of `_get_unindexed_index_reqs`: the requests still needing
indexing, the resulting index file state (`none` when the file was deleted),
and whether `orjsonl.save` overwrote the file. -/
structure UnindexedResult where
  unindexed : List Request
  newIndexFile : Option (List IndexTuple)
  wroteIndex : Bool
deriving DecidableEq, Repr

/-- Embedding of `_get_unindexed_index_reqs`.  A missing index file returns
the provided requests untouched; an `always` interval deletes the file and
returns the provided requests; otherwise the loaded tuples are filtered to
those whose request is in the provided set and which are fresh, the file is
overwritten only when the filtered length differs from the loaded length,
and the provided requests minus the requests of kept tuples are returned. -/
def getUnindexedIndexReqs (interval : RefreshInterval) (now : Int)
    (file : Option (List IndexTuple)) (indexReqs : List Request) :
    UnindexedResult :=
  match file with
  | none => ⟨indexReqs, none, false⟩
  | some index =>
    if interval == RefreshInterval.always then
      ⟨indexReqs, none, false⟩
    else
      let filtered := index.filter fun t =>
        indexReqs.contains t.req && tupleFresh interval now t
      if filtered.length ≠ index.length then
        ⟨indexReqs.filter (fun r => !(filtered.any (fun t => t.req == r))),
          some filtered, true⟩
      else
        ⟨indexReqs.filter (fun r => !(filtered.any (fun t => t.req == r))),
          some index, false⟩

/-- Currency of a tuple as the spec phrases it: the interval is `Never`, or
the interval is a duration and the retrieved-at timestamp is within it. -/
def specTupleCurrent (interval : RefreshInterval) (now : Int)
    (t : IndexTuple) : Bool :=
  match interval with
  | .never => true
  | .always => false
  | .duration d => decide (now - t.whenIndexed ≤ d)

/-- Membership of a request in the already-indexed set as the spec phrases
it: some loaded tuple carries this request, the request is a member of the
discovery-request set, and the tuple is current. -/
def specAlreadyIndexed (interval : RefreshInterval) (now : Int)
    (index : List IndexTuple) (reqs : List Request) (r : Request) : Bool :=
  index.any fun t =>
    (t.req == r) && reqs.contains t.req && specTupleCurrent interval now t

/-! ## Corpus reconciliation (`Creator.create`, lines 228-258)

The flattened entry mapping is a Python dict keyed by `version_id`; it is
modelled as an association list with Python insertion/update semantics
(an update keeps the original position of the key, a fresh key is appended).
The rewrite pass is a fold over the streamed corpus whose state holds the
records written to the temporary file and the tracked version ids. -/

/-- Assignment `d[k] = v` on a Python dict modelled as an association list. -/
def dictInsert (k : String) (v : Entry) (d : List (String × Entry)) :
    List (String × Entry) :=
  if d.any (fun p => p.1 == k) then
    d.map (fun p => if p.1 == k then (k, v) else p)
  else
    d ++ [(k, v)]

/-- The dict comprehension of lines 230-239: entries flattened across all
sources and tuples, deduplicated by `version_id`, later occurrences
overwriting earlier ones. -/
def entriesDict (flat : List Entry) : List (String × Entry) :=
  flat.foldl (fun d e => dictInsert e.version_id e d) []

/-- The flattening order of the comprehension: sources in order, tuples of
each index in file order, entries of each tuple in list order. -/
def flattenEntries (indices : List (List IndexTuple)) : List Entry :=
  ((indices.map (fun idx => (idx.map (fun t => t.entries)).flatten)).flatten)

/-- Keys of the flattened mapping, in insertion order. -/
def entryKeys (flat : List Entry) : List String :=
  (entriesDict flat).map (fun p => p.1)

/-- One iteration of the rewrite loop (lines 245-250): the record is written
and its version id tracked exactly when its version id has not been tracked
yet and (its version id is a key of the mapping or its source is not among
the scraped sources). -/
def reconcileStep (entryIds scope : List String)
    (st : List CorpusDoc × List String) (doc : CorpusDoc) :
    List CorpusDoc × List String :=
  if doc.version_id ∉ st.2 ∧ (doc.version_id ∈ entryIds ∨ doc.source ∉ scope) then
    (st.1 ++ [doc], st.2 ++ [doc.version_id])
  else
    st

/-- The whole rewrite pass: the records written to the temporary file (which
then atomically replaces the corpus) and the tracked version ids. -/
def rewriteCorpus (entryIds scope : List String) (corpus : List CorpusDoc) :
    List CorpusDoc × List String :=
  corpus.foldl (reconcileStep entryIds scope) ([], [])

/-- Lines 257-258: the entries of the flattened mapping whose version id was
not kept by the rewrite pass, in mapping order (the code then shuffles
them). -/
def missingEntries (flat : List Entry) (scope : List String)
    (corpus : List CorpusDoc) : List (String × Entry) :=
  let keptIds := (rewriteCorpus (entryKeys flat) scope corpus).2
  (entriesDict flat).filter (fun p => !(keptIds.contains p.1))

/-- The corpus after a full run: the records kept by the rewrite pass
followed by the documents fetched for missing entries, in the order the
fetches complete (`fetchOrder`, a permutation of the missing entries).
`fetch` models `scraper.get_doc`; a `none` result is skipped (line 275). -/
def createRun (indices : List (List IndexTuple)) (scope : List String)
    (corpus : List CorpusDoc) (fetch : Entry → Option CorpusDoc)
    (fetchOrder : List (String × Entry)) : List CorpusDoc :=
  (rewriteCorpus (entryKeys (flattenEntries indices)) scope corpus).1
    ++ fetchOrder.filterMap (fun p => fetch p.2)

/-! ## Source selection (`Creator.__init__`, lines 42-57) -/

/-- Keys of the `SOURCES` map of `creator.py`, in declaration order. -/
def SOURCES_names : List String :=
  ["federal_court_of_australia", "federal_register_of_legislation",
   "nsw_caselaw", "nsw_legislation", "queensland_legislation",
   "south_australian_legislation", "western_australian_legislation",
   "tasmanian_legislation"]

/-- A Python iterable of source names as seen by the truth test of
`sources or SOURCES.keys()`: its elements together with its truthiness.
Sized collections (list, tuple, set, dict) are falsy exactly when empty;
iterators such as generators are truthy even when they yield nothing. -/
structure PyIterable where
  items : List String
  truthy : Bool
deriving DecidableEq, Repr

/-- A sized Python collection holding the given names: truthy iff nonempty. -/
def sizedIterable (items : List String) : PyIterable :=
  ⟨items, !items.isEmpty⟩

/-- Modelled from the spec: the scrapers module is outside the two embedded
files, so the `source` attribute of each scraper is taken from the spec
(each adapter is identified by its `SOURCES` key, the glossary "Source"
identifier).  Selection therefore reduces to names: `__init__` evaluates
`sources or SOURCES.keys()` under Python truthiness and then builds a set of
scrapers keyed by their names, deduplicating repeated names. -/
def selectedSources (sources : Option PyIterable) : List String :=
  match sources with
  | none => SOURCES_names
  | some it => if it.truthy then it.items.eraseDups else SOURCES_names

/-! ## Helper lemmas -/

/-- Filtering then testing `any` is one `any` with the conjunction. -/
theorem any_filter_eq (l : List α) (p q : α → Bool) :
    (l.filter p).any q = l.any (fun x => p x && q x) := by
  induction l with
  | nil => rfl
  | cons a t ih =>
    by_cases hp : p a = true <;>
      simp [List.filter_cons, hp, ih]

/-- Congruence for `List.any` under a pointwise equal predicate. -/
theorem any_congr_fun (l : List α) (p q : α → Bool) (h : ∀ x, p x = q x) :
    l.any p = l.any q := by
  induction l with
  | nil => rfl
  | cons a t ih => simp [List.any_cons, h a, ih]

/-- The freshness test of the code coincides with the currency notion of the
spec on every interval. -/
theorem tupleFresh_eq_specTupleCurrent
    (interval : RefreshInterval) (now : Int) (t : IndexTuple) :
    tupleFresh interval now t = specTupleCurrent interval now t := by
  cases interval <;> rfl

/-! ## Theorems about the discovery index manager -/

/-- C6: `_get_index_reqs` invokes the generator and persists the result,
fully replacing any prior file, exactly when the persisted file is absent,
the refresh interval is `Always`, or the interval is a duration exceeded by
`now` minus the file modification time; otherwise it returns the persisted
requests loaded from disk and leaves the file untouched. -/
theorem getIndexReqs_refresh_policy
    (interval : RefreshInterval) (now : Int)
    (file : Option (List Request × Int)) (fresh : List Request) :
    getIndexReqs interval now file fresh =
      if specDiscoveryRegenerate interval now file then
        (fresh, some (fresh, now))
      else
        ((file.map Prod.fst).getD [], file) := by
  cases file with
  | none => rfl
  | some p =>
    obtain ⟨reqs, mtime⟩ := p
    cases interval <;>
      simp [getIndexReqs, specDiscoveryRegenerate]

/-! ## Theorems about the entry index manager -/

/-- C4: with no index file the whole discovery-request set is returned; an
`Always` interval deletes the index file and returns the whole set; otherwise
the returned set is the discovery-request set minus the requests of loaded
tuples that are members of that set and are current (interval `Never`, or a
duration not yet exceeded); in particular a tuple older than a duration
interval is excluded from the already-indexed set and, when every loaded
tuple bearing its request is that stale, its request is returned for
re-indexing. -/
theorem getUnindexedIndexReqs_spec
    (interval : RefreshInterval) (now : Int) (index : List IndexTuple)
    (reqs : List Request) :
    getUnindexedIndexReqs interval now none reqs = ⟨reqs, none, false⟩ ∧
    getUnindexedIndexReqs .always now (some index) reqs = ⟨reqs, none, false⟩ ∧
    (interval ≠ .always →
      (getUnindexedIndexReqs interval now (some index) reqs).unindexed
        = reqs.filter (fun r => !(specAlreadyIndexed interval now index reqs r))) ∧
    (∀ t ∈ index, ∀ d : Int, interval = .duration d → now - t.whenIndexed > d →
      t.req ∈ reqs → (∀ t2 ∈ index, t2.req = t.req → now - t2.whenIndexed > d) →
      t.req ∈ (getUnindexedIndexReqs interval now (some index) reqs).unindexed) := by
  have hbody : ∀ hne : interval ≠ RefreshInterval.always,
      (getUnindexedIndexReqs interval now (some index) reqs).unindexed
        = reqs.filter (fun r =>
            !((index.filter fun t =>
                reqs.contains t.req && tupleFresh interval now t).any
              (fun t => t.req == r))) := by
    intro hne
    have hba : (interval == RefreshInterval.always) = false := by
      simpa using hne
    simp only [getUnindexedIndexReqs, hba, Bool.false_eq_true, if_false]
    split <;> rfl
  refine ⟨rfl, rfl, fun hne => ?_, fun t ht d hd hstale hmem hall => ?_⟩
  · rw [hbody hne]
    apply List.filter_congr
    intro r _
    have h1 : ((index.filter fun t =>
          reqs.contains t.req && tupleFresh interval now t).any
            (fun t => t.req == r))
        = specAlreadyIndexed interval now index reqs r := by
      rw [any_filter_eq]
      simp only [specAlreadyIndexed]
      apply any_congr_fun
      intro t
      rw [tupleFresh_eq_specTupleCurrent]
      cases hc : reqs.contains t.req <;>
        cases hcur : specTupleCurrent interval now t <;>
          cases hr : (t.req == r) <;> rfl
    rw [h1]
  · subst hd
    rw [hbody (by simp)]
    simp only [List.mem_filter]
    refine ⟨hmem, ?_⟩
    simp only [Bool.not_eq_true', List.any_eq_false]
    intro t2 ht2
    rw [List.mem_filter] at ht2
    intro hq
    have ht2r : t2.req = t.req := by simpa using hq
    have hstale2 : now - t2.whenIndexed > d := hall t2 ht2.1 ht2r
    have hfr : tupleFresh (.duration d) now t2 = false := by
      simp only [tupleFresh]
      simp only [Bool.or_eq_false_iff]
      refine ⟨by simp, ?_⟩
      simp only [decide_eq_false_iff_not]
      omega
    rw [hfr, Bool.and_false] at ht2
    exact Bool.false_ne_true ht2.2

/-- Witness for C4: a tuple five seconds stale against a duration of five is
not counted as indexed and its request is returned. -/
theorem getUnindexedIndexReqs_spec_witness :
    (getUnindexedIndexReqs (.duration 5) 10
        (some [⟨⟨"s", "p"⟩, [], 2⟩]) [⟨"s", "p"⟩, ⟨"s", "q"⟩]).unindexed
      = [⟨"s", "p"⟩, ⟨"s", "q"⟩] ∧
    (⟨"s", "p"⟩ : Request) ∈
      (getUnindexedIndexReqs (.duration 5) 10
        (some [⟨⟨"s", "p"⟩, [], 2⟩]) [⟨"s", "p"⟩]).unindexed := by
  obtain ⟨-, -, h3, -⟩ :=
    getUnindexedIndexReqs_spec (.duration 5) 10
      [⟨⟨"s", "p"⟩, [], 2⟩] [⟨"s", "p"⟩, ⟨"s", "q"⟩]
  obtain ⟨-, -, -, h4⟩ :=
    getUnindexedIndexReqs_spec (.duration 5) 10
      [⟨⟨"s", "p"⟩, [], 2⟩] [⟨"s", "p"⟩]
  constructor
  · rw [h3 (by decide)]
    decide
  · exact h4 ⟨⟨"s", "p"⟩, [], 2⟩ (by decide) 5 rfl (by decide) (by decide)
      (by decide)

/-- C5: in the filtering branch (index file present, interval not `Always`),
the index file is overwritten exactly when some loaded tuple is removed by
the filter — its request no longer appears in the discovery-request set, or
it is stale; when nothing is removed the file is left unchanged, and when
something is removed the filtered tuples are persisted. -/
theorem getUnindexedIndexReqs_write_iff_removal
    (interval : RefreshInterval) (now : Int) (index : List IndexTuple)
    (reqs : List Request) (h : interval ≠ .always) :
    ((getUnindexedIndexReqs interval now (some index) reqs).wroteIndex = true ↔
      ∃ t ∈ index, t.req ∉ reqs ∨ specTupleCurrent interval now t = false) ∧
    ((getUnindexedIndexReqs interval now (some index) reqs).wroteIndex = false →
      (getUnindexedIndexReqs interval now (some index) reqs).newIndexFile
        = some index) ∧
    ((getUnindexedIndexReqs interval now (some index) reqs).wroteIndex = true →
      (getUnindexedIndexReqs interval now (some index) reqs).newIndexFile
        = some (index.filter fun t =>
            reqs.contains t.req && tupleFresh interval now t)) := by
  have hba : (interval == RefreshInterval.always) = false := by
    simpa using h
  have hremove : ∀ t : IndexTuple,
      ((reqs.contains t.req && tupleFresh interval now t) = false) ↔
        (t.req ∉ reqs ∨ specTupleCurrent interval now t = false) := by
    intro t
    have hcont : reqs.contains t.req = decide (t.req ∈ reqs) :=
      List.elem_eq_mem t.req reqs
    rw [tupleFresh_eq_specTupleCurrent, Bool.and_eq_false_iff, hcont,
      decide_eq_false_iff_not]
  have hsplit : getUnindexedIndexReqs interval now (some index) reqs =
      if (index.filter fun t =>
            reqs.contains t.req && tupleFresh interval now t).length
          ≠ index.length then
        ⟨reqs.filter (fun r =>
            !((index.filter fun t =>
                reqs.contains t.req && tupleFresh interval now t).any
              (fun t => t.req == r))),
          some (index.filter fun t =>
            reqs.contains t.req && tupleFresh interval now t), true⟩
      else
        ⟨reqs.filter (fun r =>
            !((index.filter fun t =>
                reqs.contains t.req && tupleFresh interval now t).any
              (fun t => t.req == r))),
          some index, false⟩ := by
    simp only [getUnindexedIndexReqs, hba, Bool.false_eq_true, if_false]
  rw [hsplit]
  by_cases hrm : ((index.filter fun t =>
      reqs.contains t.req && tupleFresh interval now t).length = index.length)
  · rw [if_neg (by simpa using hrm)]
    refine ⟨?_, fun _ => rfl, fun hc => absurd hc (by simp)⟩
    simp only [show (⟨reqs.filter (fun r =>
        !((index.filter fun t =>
            reqs.contains t.req && tupleFresh interval now t).any
          (fun t => t.req == r))), some index, false⟩ :
          UnindexedResult).wroteIndex = false from rfl]
    simp only [Bool.false_eq_true, false_iff]
    rintro ⟨t, ht, hrem⟩
    have heq := List.Sublist.eq_of_length (List.filter_sublist index) hrm
    have htf : t ∈ index.filter
        (fun t => reqs.contains t.req && tupleFresh interval now t) := by
      rw [heq]; exact ht
    have hkeep := (List.mem_filter.mp htf).2
    rw [(hremove t).mpr hrem] at hkeep
    exact Bool.false_ne_true hkeep
  · rw [if_pos hrm]
    refine ⟨?_, fun hc => absurd hc (by simp), fun _ => rfl⟩
    simp only [true_iff]
    have hnall : ¬ ∀ t ∈ index,
        (reqs.contains t.req && tupleFresh interval now t) = true := by
      intro hall
      exact hrm (by rw [List.filter_eq_self.mpr hall])
    push_neg at hnall
    obtain ⟨t, ht, hnk⟩ := hnall
    have hpredf : (reqs.contains t.req && tupleFresh interval now t) = false := by
      cases hb : (reqs.contains t.req && tupleFresh interval now t)
      · rfl
      · exact absurd hb hnk
    exact ⟨t, ht, (hremove t).mp hpredf⟩

/-- Witness for C5: a stale tuple forces an overwrite; a fresh tuple leaves
the file unchanged. -/
theorem getUnindexedIndexReqs_write_iff_removal_witness :
    (getUnindexedIndexReqs (.duration 5) 10
        (some [⟨⟨"s", "p"⟩, [], 2⟩]) [⟨"s", "p"⟩]).wroteIndex = true ∧
    (getUnindexedIndexReqs (.duration 5) 10
        (some [⟨⟨"s", "p"⟩, [], 7⟩]) [⟨"s", "p"⟩]).newIndexFile
      = some [⟨⟨"s", "p"⟩, [], 7⟩] := by
  obtain ⟨h1, -, -⟩ :=
    getUnindexedIndexReqs_write_iff_removal (.duration 5) 10
      [⟨⟨"s", "p"⟩, [], 2⟩] [⟨"s", "p"⟩] (by decide)
  obtain ⟨-, h2, -⟩ :=
    getUnindexedIndexReqs_write_iff_removal (.duration 5) 10
      [⟨⟨"s", "p"⟩, [], 7⟩] [⟨"s", "p"⟩] (by decide)
  exact ⟨h1.mpr ⟨⟨⟨"s", "p"⟩, [], 2⟩, by decide, Or.inr (by decide)⟩,
    h2 (by decide)⟩

/-! ## Theorems about corpus reconciliation -/

/-- Processing one more streamed record applies one reconciliation step to
the state reached on the earlier records. -/
theorem rewriteCorpus_take_succ (entryIds scope : List String)
    (corpus : List CorpusDoc) (i : Nat) (h : i < corpus.length) :
    rewriteCorpus entryIds scope (corpus.take (i + 1)) =
      reconcileStep entryIds scope
        (rewriteCorpus entryIds scope (corpus.take i)) corpus[i] := by
  have htake : corpus.take (i + 1) = corpus.take i ++ [corpus[i]] := by
    rw [List.take_succ, List.getElem?_eq_getElem h]
    rfl
  rw [htake, rewriteCorpus, List.foldl_append]
  rfl

/-- C1: a streamed record is kept — written to the temporary file, its
version id tracked — if and only if its version id has not been kept earlier
in the pass and (its version id is a key of the flattened mapping, or its
source is not among the sources in scope). -/
theorem reconcile_keep_iff (entryIds scope : List String)
    (corpus : List CorpusDoc) (i : Nat) (h : i < corpus.length) :
    rewriteCorpus entryIds scope (corpus.take (i + 1)) =
      if corpus[i].version_id ∉
            (rewriteCorpus entryIds scope (corpus.take i)).2 ∧
          (corpus[i].version_id ∈ entryIds ∨ corpus[i].source ∉ scope) then
        ((rewriteCorpus entryIds scope (corpus.take i)).1 ++ [corpus[i]],
         (rewriteCorpus entryIds scope (corpus.take i)).2
           ++ [corpus[i].version_id])
      else
        rewriteCorpus entryIds scope (corpus.take i) := by
  rw [rewriteCorpus_take_succ entryIds scope corpus i h]
  rfl

/-- Witness for C1: a record whose version id is in the mapping is kept. -/
theorem reconcile_keep_iff_witness :
    rewriteCorpus ["v1"] ["s"] (([⟨"v1", "s"⟩] : List CorpusDoc).take (0 + 1)) =
      ([⟨"v1", "s"⟩], ["v1"]) :=
  (reconcile_keep_iff ["v1"] ["s"] [⟨"v1", "s"⟩] 0 (by decide)).trans (by decide)

/-- C3 counterexample: with mapping key `v1` and scope `src_a`, a corpus
holding two records with version id `v1` — the second from the out-of-scope
source `legacy` — loses the second record even though its source is not in
scope and its version id is present in the mapping: the duplicate defence
removes it. -/
theorem reconcile_foreign_source_removed_cex :
    (⟨"v1", "legacy"⟩ : CorpusDoc) ∈
        ([⟨"v1", "src_a"⟩, ⟨"v1", "legacy"⟩] : List CorpusDoc) ∧
    "legacy" ∉ ["src_a"] ∧
    "v1" ∈ ["v1"] ∧
    (⟨"v1", "legacy"⟩ : CorpusDoc) ∉
      (rewriteCorpus ["v1"] ["src_a"] [⟨"v1", "src_a"⟩, ⟨"v1", "legacy"⟩]).1 := by
  decide

/-- C3 amended: for every record dropped by reconciliation, either its
version id had already been kept earlier in the pass (a pre-existing
duplicate), or its version id was absent from the flattened mapping and its
source was in scope.  In particular a record of an out-of-scope source is
dropped only as a duplicate of an earlier kept record. -/
theorem reconcile_removal_characterization (entryIds scope : List String)
    (corpus : List CorpusDoc) (i : Nat) (h : i < corpus.length)
    (hrem : rewriteCorpus entryIds scope (corpus.take (i + 1))
      = rewriteCorpus entryIds scope (corpus.take i)) :
    corpus[i].version_id ∈ (rewriteCorpus entryIds scope (corpus.take i)).2 ∨
      (corpus[i].version_id ∉ entryIds ∧ corpus[i].source ∈ scope) := by
  by_contra hno
  push_neg at hno
  have hcond : corpus[i].version_id ∉
        (rewriteCorpus entryIds scope (corpus.take i)).2 ∧
      (corpus[i].version_id ∈ entryIds ∨ corpus[i].source ∉ scope) := by
    refine ⟨hno.1, ?_⟩
    by_cases hv : corpus[i].version_id ∈ entryIds
    · exact Or.inl hv
    · exact Or.inr (hno.2 hv)
  rw [rewriteCorpus_take_succ entryIds scope corpus i h] at hrem
  simp only [reconcileStep, if_pos hcond] at hrem
  have hlen := congrArg (fun p => p.2.length) hrem
  simp at hlen

/-- Witness for the amended C3: the duplicate `legacy` record of the
counterexample is dropped because `v1` was already kept. -/
theorem reconcile_removal_characterization_witness :
    ([⟨"v1", "x"⟩, ⟨"v1", "legacy"⟩] : List CorpusDoc)[1].version_id ∈
        (rewriteCorpus ([] : List String) ["s"]
          (([⟨"v1", "x"⟩, ⟨"v1", "legacy"⟩] : List CorpusDoc).take 1)).2 ∨
      (([⟨"v1", "x"⟩, ⟨"v1", "legacy"⟩] : List CorpusDoc)[1].version_id
          ∉ ([] : List String) ∧
        ([⟨"v1", "x"⟩, ⟨"v1", "legacy"⟩] : List CorpusDoc)[1].source ∈ ["s"]) :=
  reconcile_removal_characterization [] ["s"]
    [⟨"v1", "x"⟩, ⟨"v1", "legacy"⟩] 1 (by decide) (by decide)

/-- Invariant of the rewrite fold: the tracked version ids are exactly the
version ids of the written records, in order, and they are pairwise
distinct. -/
theorem reconcileFold_invariant (entryIds scope : List String) :
    ∀ (corpus : List CorpusDoc) (st : List CorpusDoc × List String),
      st.2 = st.1.map (fun d => d.version_id) → st.2.Nodup →
      (corpus.foldl (reconcileStep entryIds scope) st).2
          = (corpus.foldl (reconcileStep entryIds scope) st).1.map
              (fun d => d.version_id)
        ∧ (corpus.foldl (reconcileStep entryIds scope) st).2.Nodup := by
  intro corpus
  induction corpus with
  | nil => intro st h1 h2; exact ⟨h1, h2⟩
  | cons doc rest ih =>
    intro st h1 h2
    rw [List.foldl_cons]
    by_cases hc : doc.version_id ∉ st.2 ∧
        (doc.version_id ∈ entryIds ∨ doc.source ∉ scope)
    · have hstep : reconcileStep entryIds scope st doc
          = (st.1 ++ [doc], st.2 ++ [doc.version_id]) := by
        simp only [reconcileStep, if_pos hc]
      rw [hstep]
      apply ih
      · simp [h1]
      · rw [List.nodup_append]
        refine ⟨h2, List.nodup_singleton _, ?_⟩
        intro a ha hav
        rw [List.mem_singleton] at hav
        exact hc.1 (hav ▸ ha)
    · have hstep : reconcileStep entryIds scope st doc = st := by
        simp only [reconcileStep, if_neg hc]
      rw [hstep]
      exact ih st h1 h2

/-- The tracked version ids of a whole rewrite pass are the version ids of
the kept records and are pairwise distinct. -/
theorem rewriteCorpus_ids (entryIds scope : List String)
    (corpus : List CorpusDoc) :
    (rewriteCorpus entryIds scope corpus).2
        = (rewriteCorpus entryIds scope corpus).1.map (fun d => d.version_id)
      ∧ (rewriteCorpus entryIds scope corpus).2.Nodup :=
  reconcileFold_invariant entryIds scope corpus ([], []) rfl List.nodup_nil

/-- Keys after one Python dict assignment: unchanged when the key was
present, extended by the key when it was not. -/
theorem dictInsert_keys (k : String) (v : Entry) (d : List (String × Entry)) :
    (dictInsert k v d).map (fun p => p.1)
      = if d.any (fun p => p.1 == k) then d.map (fun p => p.1)
        else d.map (fun p => p.1) ++ [k] := by
  simp only [dictInsert]
  split
  · rw [List.map_map]
    apply List.map_congr_left
    intro p _
    simp only [Function.comp_apply]
    by_cases hpk : (p.1 == k) = true
    · rw [if_pos hpk]
      exact (eq_of_beq hpk).symm
    · rw [if_neg hpk]
  · simp

/-- The key-value invariant of the entries dict survives one assignment of an
entry under its own version id. -/
theorem dictInsert_values (k : String) (v : Entry) (d : List (String × Entry))
    (hv : v.version_id = k) (h : ∀ p ∈ d, p.2.version_id = p.1) :
    ∀ p ∈ dictInsert k v d, p.2.version_id = p.1 := by
  intro p hp
  simp only [dictInsert] at hp
  split at hp
  · rw [List.mem_map] at hp
    obtain ⟨q, hq, hqp⟩ := hp
    by_cases hqk : (q.1 == k) = true
    · rw [if_pos hqk] at hqp
      rw [← hqp]
      exact hv
    · rw [if_neg hqk] at hqp
      rw [← hqp]
      exact h q hq
  · rw [List.mem_append] at hp
    rcases hp with hp | hp
    · exact h p hp
    · rw [List.mem_singleton] at hp
      rw [hp]
      exact hv

/-- The entries dict built by the comprehension has pairwise distinct keys,
and every stored entry sits under its own version id. -/
theorem entriesDict_invariant :
    ∀ (flat : List Entry) (d : List (String × Entry)),
      (d.map (fun p => p.1)).Nodup → (∀ p ∈ d, p.2.version_id = p.1) →
      ((flat.foldl (fun d e => dictInsert e.version_id e d) d).map
          (fun p => p.1)).Nodup
        ∧ ∀ p ∈ flat.foldl (fun d e => dictInsert e.version_id e d) d,
            p.2.version_id = p.1 := by
  intro flat
  induction flat with
  | nil => intro d h1 h2; exact ⟨h1, h2⟩
  | cons e rest ih =>
    intro d h1 h2
    rw [List.foldl_cons]
    apply ih
    · by_cases hany : (d.any (fun p => p.1 == e.version_id)) = true
      · rw [dictInsert_keys, if_pos hany]
        exact h1
      · rw [dictInsert_keys, if_neg hany]
        rw [List.nodup_append]
        refine ⟨h1, List.nodup_singleton _, ?_⟩
        intro a ha hav
        rw [List.mem_singleton] at hav
        subst hav
        apply hany
        rw [List.any_eq_true]
        rw [List.mem_map] at ha
        obtain ⟨q, hq, hqa⟩ := ha
        exact ⟨q, hq, by simp [hqa]⟩
    · exact dictInsert_values _ _ _ rfl h2

/-- Fetched documents inherit the version ids of their entries, which are the
pairwise distinct keys of the missing-entry list, so the appended documents
carry pairwise distinct version ids drawn from those keys. -/
theorem filterMap_fetch_nodup (fetch : Entry → Option CorpusDoc)
    (hfetch : ∀ e d, fetch e = some d → d.version_id = e.version_id) :
    ∀ ms : List (String × Entry),
      (ms.map (fun p => p.1)).Nodup → (∀ p ∈ ms, p.2.version_id = p.1) →
      ((ms.filterMap (fun p => fetch p.2)).map (fun d => d.version_id)).Nodup
        ∧ ∀ v ∈ (ms.filterMap (fun p => fetch p.2)).map
            (fun d => d.version_id), v ∈ ms.map (fun p => p.1) := by
  intro ms
  induction ms with
  | nil =>
    intro _ _
    exact ⟨List.nodup_nil, by simp⟩
  | cons p rest ih =>
    intro h1 h2
    have h1b : (p.1 :: rest.map (fun p => p.1)).Nodup := by
      rw [List.map_cons] at h1
      exact h1
    obtain ⟨hp1, hrest⟩ := List.nodup_cons.mp h1b
    have ihr := ih hrest (fun q hq => h2 q (List.mem_cons_of_mem _ hq))
    have hval := h2 p (List.mem_cons_self p rest)
    cases hf2 : fetch p.2 with
    | none =>
      simp only [List.filterMap_cons, hf2]
      refine ⟨ihr.1, fun v hv => ?_⟩
      rw [List.map_cons, List.mem_cons]
      exact Or.inr (ihr.2 v hv)
    | some doc =>
      have hdv : doc.version_id = p.1 := (hfetch p.2 doc hf2).trans hval
      simp only [List.filterMap_cons, hf2]
      constructor
      · rw [List.map_cons, List.nodup_cons]
        refine ⟨fun hmem => hp1 ?_, ihr.1⟩
        rw [← hdv]
        exact ihr.2 _ hmem
      · intro v hv
        rw [List.map_cons, List.mem_cons] at hv
        rw [List.map_cons, List.mem_cons]
        rcases hv with hv | hv
        · exact Or.inl (by rw [hv, hdv])
        · exact Or.inr (ihr.2 v hv)

/-- C2: after a full run — rewrite pass then append of fetched documents in
any completion order — the version ids of the corpus records are pairwise
distinct, provided the adapter returns documents bearing the version id of
the entry they were fetched for. -/
theorem createRun_version_ids_nodup
    (indices : List (List IndexTuple)) (scope : List String)
    (corpus : List CorpusDoc) (fetch : Entry → Option CorpusDoc)
    (fetchOrder : List (String × Entry))
    (hperm : fetchOrder.Perm
      (missingEntries (flattenEntries indices) scope corpus))
    (hfetch : ∀ e d, fetch e = some d → d.version_id = e.version_id) :
    ((createRun indices scope corpus fetch fetchOrder).map
        (fun d => d.version_id)).Nodup := by
  have hdict := entriesDict_invariant (flattenEntries indices) [] (by simp)
    (by simp)
  have hmisskeys : ((missingEntries (flattenEntries indices) scope
      corpus).map (fun p => p.1)).Nodup := by
    have hsub : List.Sublist
        ((missingEntries (flattenEntries indices) scope corpus).map
          (fun p => p.1))
        ((entriesDict (flattenEntries indices)).map (fun p => p.1)) := by
      simp only [missingEntries]
      exact (List.filter_sublist _).map _
    exact hsub.nodup hdict.1
  have hkeys : (fetchOrder.map (fun p => p.1)).Nodup := by
    rw [(hperm.map (fun p => p.1)).nodup_iff]
    exact hmisskeys
  have hvals : ∀ p ∈ fetchOrder, p.2.version_id = p.1 := by
    intro p hp
    have hpm := hperm.subset hp
    simp only [missingEntries] at hpm
    exact hdict.2 p (List.mem_filter.mp hpm).1
  have hfm := filterMap_fetch_nodup fetch hfetch fetchOrder hkeys hvals
  have hnotkept : ∀ p ∈ fetchOrder,
      p.1 ∉ (rewriteCorpus (entryKeys (flattenEntries indices)) scope
        corpus).2 := by
    intro p hp
    have hpm := hperm.subset hp
    simp only [missingEntries] at hpm
    have h2 := (List.mem_filter.mp hpm).2
    simpa using h2
  simp only [createRun, List.map_append]
  rw [List.nodup_append]
  refine ⟨?_, hfm.1, ?_⟩
  · rw [← (rewriteCorpus_ids (entryKeys (flattenEntries indices)) scope
      corpus).1]
    exact (rewriteCorpus_ids _ _ _).2
  · intro a ha hb
    have hak := hfm.2 a hb
    rw [List.mem_map] at hak
    obtain ⟨p, hp, hpa⟩ := hak
    apply hnotkept p hp
    rw [hpa, (rewriteCorpus_ids _ _ _).1]
    exact ha

/-- Witness for C2: one source, one request, entries `v1` and `v2`, empty
corpus, an adapter echoing each version id: the resulting corpus has
pairwise distinct version ids. -/
theorem createRun_version_ids_nodup_witness :
    ((createRun [[⟨⟨"s", "p"⟩, [⟨"v1", ⟨"s", "p"⟩⟩, ⟨"v2", ⟨"s", "p"⟩⟩], 0⟩]]
        ["s"] []
        (fun e => some ⟨e.version_id, "s"⟩)
        (missingEntries
          (flattenEntries
            [[⟨⟨"s", "p"⟩, [⟨"v1", ⟨"s", "p"⟩⟩, ⟨"v2", ⟨"s", "p"⟩⟩], 0⟩]])
          ["s"] [])).map (fun d => d.version_id)).Nodup :=
  createRun_version_ids_nodup _ _ _ _ _ (List.Perm.refl _)
    (fun e d h => by injection h with h2; rw [← h2])

/-! ## Theorems about the NSW Legislation adapter -/

/-- C10: when parsing raises `UnicodeDecodeError` or `IndexError`, the error
is suppressed: no document is appended to the corpus file, the URL is still
appended to the downloaded index, nothing is raised, and the PDF fallback is
not triggered. -/
theorem getDocument_suppresses_decode_and_index_errors
    (web : String → FetchOutcome) (url : String)
    (h : web url = .decodeError ∨ web url = .indexError) :
    getDocument web url =
      { corpusAppends := [],
        downloadedAppends := [["nsw_legislation", url]],
        raisedFrom := none,
        fallbackCalls := 0 } := by
  rcases h with h | h <;> simp [getDocument, h]

/-- Witness for C10 at the PDF-as-HTML URL named in the source comment. -/
theorem getDocument_suppresses_decode_and_index_errors_witness :
    getDocument (fun _ => .decodeError)
        "https://legislation.nsw.gov.au/view/whole/html/inforce/current/epi-2018-0764" =
      { corpusAppends := [],
        downloadedAppends :=
          [["nsw_legislation",
            "https://legislation.nsw.gov.au/view/whole/html/inforce/current/epi-2018-0764"]],
        raisedFrom := none,
        fallbackCalls := 0 } :=
  getDocument_suppresses_decode_and_index_errors (fun _ => .decodeError) _ (Or.inl rfl)

/-- C7 counterexample: a decode error on the primary locator makes zero
fallback attempts (the claim requires exactly one), because
`suppress(UnicodeDecodeError, IndexError)` swallows it before the `except`
clause that performs the fallback can see it. -/
theorem getDocument_decode_error_makes_no_fallback_cex :
    ((fun _ => FetchOutcome.decodeError) : String → FetchOutcome)
        "https://x/view/whole/html/a" = .decodeError ∧
    (getDocument (fun _ => .decodeError) "https://x/view/whole/html/a").fallbackCalls = 0 ∧
    (getDocument (fun _ => .decodeError) "https://x/view/whole/html/a").raisedFrom = none :=
  ⟨rfl, rfl, rfl⟩

/-- C7 amended: an exception other than `UnicodeDecodeError` and `IndexError`
on the primary locator triggers exactly one fallback attempt against the PDF
rendering of the same URL; if the fallback also fails that way, a fatal error
naming the fallback locator is raised and nothing is appended to the corpus;
if the fallback succeeds its document is appended.  Decode and parse errors
never reach the fallback. -/
theorem getDocument_fallback_on_other_error
    (web : String → FetchOutcome) (url : String) (h : web url = .otherError) :
    (getDocument web url).fallbackCalls = 1 ∧
    (web (pdfUrl url) = .otherError →
      (getDocument web url).raisedFrom = some (pdfUrl url) ∧
      (getDocument web url).corpusAppends = []) ∧
    (∀ t c, web (pdfUrl url) = .success t c →
      (getDocument web url).raisedFrom = none ∧
      (getDocument web url).corpusAppends = [mkDocument (pdfUrl url) t c]) := by
  refine ⟨?_, fun hw => ?_, fun t c hw => ?_⟩ <;>
    cases hw2 : web (pdfUrl url) <;>
      simp_all [getDocument, getDocumentRecursive, h]

/-- Witness for the amended C7: with every URL failing with a non-decode
error, the primary attempt falls back exactly once and the fatal error names
the PDF locator. -/
theorem getDocument_fallback_on_other_error_witness :
    (getDocument (fun _ => .otherError) "https://x/view/whole/html/a").fallbackCalls = 1 ∧
    (getDocument (fun _ => .otherError) "https://x/view/whole/html/a").raisedFrom
      = some (pdfUrl "https://x/view/whole/html/a") := by
  obtain ⟨h1, h2, _⟩ :=
    getDocument_fallback_on_other_error (fun _ => .otherError)
      "https://x/view/whole/html/a" rfl
  exact ⟨h1, (h2 rfl).1⟩

/-- C8 counterexample: a successfully parsed NSW Legislation document is
appended to the corpus with exactly the keys `text`, `type`, `jurisdiction`,
`source`, `citation` and `url`; the record carries no `version_id` key. -/
theorem nsw_document_lacks_version_id_cex :
    (getDocument (fun _ => .success "T" "C")
        "https://legislation.nsw.gov.au/view/whole/html/inforce/current/act-1900-040").corpusAppends
      = [mkDocument
          "https://legislation.nsw.gov.au/view/whole/html/inforce/current/act-1900-040"
          "T" "C"] ∧
    (mkDocument
        "https://legislation.nsw.gov.au/view/whole/html/inforce/current/act-1900-040"
        "T" "C").map (fun p => p.1)
      = ["text", "type", "jurisdiction", "source", "citation", "url"] ∧
    "version_id" ∉
      (mkDocument
        "https://legislation.nsw.gov.au/view/whole/html/inforce/current/act-1900-040"
        "T" "C").map (fun p => p.1) := by
  refine ⟨rfl, by decide, by decide⟩

/-- C8 amended: every record `get_document` appends to the corpus carries
exactly the fields `text`, `type`, `jurisdiction`, `source`, `citation` and
`url`, and in particular no `version_id` field. -/
theorem nsw_document_fields
    (web : String → FetchOutcome) (url : String) (d : List (String × String))
    (h : d ∈ (getDocument web url).corpusAppends) :
    d.map (fun p => p.1)
      = ["text", "type", "jurisdiction", "source", "citation", "url"] ∧
    "version_id" ∉ d.map (fun p => p.1) := by
  cases hw : web url <;>
    simp [getDocument, hw, getDocumentRecursive] at h
  case success t c =>
    subst h
    refine ⟨rfl, ?_⟩
    show "version_id" ∉ ["text", "type", "jurisdiction", "source", "citation", "url"]
    decide
  case otherError =>
    cases hw2 : web (pdfUrl url) <;> simp [hw2] at h
    case success t c =>
      subst h
      refine ⟨rfl, ?_⟩
      show "version_id" ∉ ["text", "type", "jurisdiction", "source", "citation", "url"]
      decide

/-- Witness for the amended C8 at a concrete successful fetch. -/
theorem nsw_document_fields_witness :
    (mkDocument "https://x/view/whole/html/a" "T" "C").map (fun p => p.1)
      = ["text", "type", "jurisdiction", "source", "citation", "url"] ∧
    "version_id" ∉
      (mkDocument "https://x/view/whole/html/a" "T" "C").map (fun p => p.1) :=
  nsw_document_fields (fun _ => .success "T" "C") "https://x/view/whole/html/a"
    (mkDocument "https://x/view/whole/html/a" "T" "C") (by simp [getDocument])

/-! ## Theorems about source selection -/

/-- C9 counterexample: an empty but truthy iterable (an exhausted generator,
say) passed as `sources` selects zero sources, not all eight: Python's `or`
keeps any truthy operand, and iterators are truthy regardless of contents. -/
theorem creator_empty_generator_selects_no_sources_cex :
    (⟨[], true⟩ : PyIterable).items = [] ∧
    selectedSources (some ⟨[], true⟩) = [] ∧
    SOURCES_names.length = 8 ∧
    selectedSources (some ⟨[], true⟩) ≠ SOURCES_names := by
  refine ⟨rfl, rfl, rfl, by decide⟩

/-- C9 amended: passing `None` or an empty sized collection (list, set,
tuple, dict) as `sources` selects all eight supported sources; any truthy
iterable — a non-empty collection, or an iterator even when empty — selects
exactly the distinct names it yields, so an empty generator selects zero
sources. -/
theorem creator_source_selection :
    selectedSources none = SOURCES_names ∧
    (∀ items : List String, items.isEmpty = true →
      selectedSources (some (sizedIterable items)) = SOURCES_names) ∧
    (∀ items : List String, items.isEmpty = false →
      selectedSources (some (sizedIterable items)) = items.eraseDups) ∧
    (∀ it : PyIterable, it.truthy = true →
      selectedSources (some it) = it.items.eraseDups) ∧
    SOURCES_names.length = 8 := by
  refine ⟨rfl, fun items h => ?_, fun items h => ?_, fun it h => ?_, rfl⟩ <;>
    simp [selectedSources, sizedIterable, h]

/-- Witness for the amended C9: a duplicated name selects that one source;
an empty list selects all eight. -/
theorem creator_source_selection_witness :
    selectedSources (some (sizedIterable ["nsw_caselaw", "nsw_caselaw"]))
      = ["nsw_caselaw"] ∧
    selectedSources (some (sizedIterable [])) = SOURCES_names := by
  obtain ⟨-, h2, h3, -, -⟩ := creator_source_selection
  exact ⟨(h3 ["nsw_caselaw", "nsw_caselaw"] rfl).trans (by decide), h2 [] rfl⟩

end OALC
